import Mathlib

/-!
Shallow embedding of `src/template-string.ts` (garden template-string
resolution engine): the key-path resolver (`genericResolver`), the string
interpolator (`parseTemplateString`), the deep resolver
(`resolveTemplateStrings`), the context builder (`getTemplateContext`) and
the lazy parser singleton (`getParser`), together with theorems settling
the specification claims about them.

Conventions of the embedding:
- JS numbers are modelled as `Int` (all claims only involve integral values).
- A JS `undefined` is modelled as `Option.none`.
- Thrown `TemplateStringError`s are modelled with `Except`.
- A settled promise is modelled by its settlement value: `Except` error for a
  rejection.  The order in which independent promises settle is made explicit
  as a parameter (a list of segment indices) where it matters.
-/

namespace TemplateString

/-- A primitive template value: string, number or boolean
(`Primitive` in `src/types/common`). -/
inductive Prim where
  | str (s : String)
  | num (n : Int)
  | bool (b : Bool)
deriving DecidableEq

/-- `class TemplateStringError extends Error { }` — an error carrying a
message string (template-string.ts line 14). -/
structure TSError where
  message : String
deriving DecidableEq

/-- The result of a `KeyResolver` function, `Promise<string> | string`
(template-string.ts line 8): either a synchronously returned string or a
promise, modelled by its eventual settlement (a string, or a rejection). -/
inductive RfRes where
  | sync (s : String)
  | async (r : Except TSError String)

/-- A context value: `Primitive | KeyResolver | TemplateStringContext`
(template-string.ts lines 10-12).  `undefined` entries are modelled by
absence from the association list. -/
inductive CtxVal where
  | prim (p : Prim)
  | func (f : List String → RfRes)
  | nested (m : List (String × CtxVal))

/-- A template string context: a JS object, modelled as an association list
whose lookup returns the first binding. -/
abbrev Ctx := List (String × CtxVal)

/-- JS object property lookup `o[k]`: first binding wins, `undefined`
(`none`) when absent. -/
def ctxLookup : Ctx → String → Option CtxVal
  | [], _ => none
  | (k, v) :: rest, key => if k = key then some v else ctxLookup rest key

/-- JS truthiness of a defined context value: `false`, `0` and `""` are
falsy; every other primitive, every function and every object (even empty)
is truthy. -/
def truthy : CtxVal → Bool
  | .prim (.str s) => s ≠ ""
  | .prim (.num n) => n ≠ 0
  | .prim (.bool b) => b
  | .func _ => true
  | .nested _ => true

/-- JS property access `value[part]` on a defined context value: field of a
nested object, `undefined` on primitives and functions.  (Built-in JS
properties of primitives such as `"abc".length` are not modelled; no claim
depends on them.) -/
def fieldGet : CtxVal → String → Option CtxVal
  | .prim _, _ => none
  | .func _, _ => none
  | .nested m, part => ctxLookup m part

/-- One iteration of the lookup in `genericResolver`
(template-string.ts line 63): `value = value ? value[part] : context[part]`.
The accumulator `acc` is `none` while still `undefined`. -/
def lookupStep (context : Ctx) (acc : Option CtxVal) (part : String) : Option CtxVal :=
  match acc with
  | some v => if truthy v then fieldGet v part else ctxLookup context part
  | none => ctxLookup context part

/-- `Could not find key: ${path}` (template-string.ts line 71). -/
def keyNotFoundErr (path : String) : TSError :=
  ⟨"Could not find key: " ++ path⟩

/-- `Value at ${path} exists but is not a primitive (string, number or
boolean)` (template-string.ts line 76). -/
def nonPrimErr (path : String) : TSError :=
  ⟨"Value at " ++ path ++ " exists but is not a primitive (string, number or boolean)"⟩

/-- The value returned by the callback of `genericResolver`: either the
accumulated context value surviving the `isPrimitive` check (`return value`,
line 79), or the verbatim result of a resolver function (`return
value(parts.slice(p + 1))`, line 68). -/
inductive GetKeyRes where
  | val (v : CtxVal)
  | fromFunc (r : RfRes)

/-- Modelled from the spec: `isPrimitive` (imported from `src/types/common`,
not under src/) — true exactly for string, number and boolean values; in
particular false for `undefined`, objects and functions. -/
def isPrimitive : Option CtxVal → Bool
  | some (.prim _) => true
  | _ => false

/-- The loop of `genericResolver` (template-string.ts lines 61-79),
recursing over the remaining parts with the accumulator `value`:
each step performs `lookupStep`; a function short-circuits with the rest of
the parts, `undefined` throws `KeyNotFound`, anything else becomes the new
accumulator; after the last part the accumulator must pass `isPrimitive`. -/
def walk (context : Ctx) (path : String) : Option CtxVal → List String → Except TSError GetKeyRes
  | acc, [] =>
    if isPrimitive acc then
      match acc with
      | some v => .ok (.val v)
      | none => .error (nonPrimErr path)
    else .error (nonPrimErr path)
  | acc, part :: rest =>
    match lookupStep context acc part with
    | none => .error (keyNotFoundErr path)
    | some (.func f) => .ok (.fromFunc (f rest))
    | some (.prim p) => walk context path (some (.prim p)) rest
    | some (.nested m) => walk context path (some (.nested m)) rest

/-- `genericResolver(context)` applied to `parts` (template-string.ts lines
56-81): `path = parts.join(".")`, then the walk starting from an
`undefined` accumulator. -/
def genericResolver (context : Ctx) (parts : List String) : Except TSError GetKeyRes :=
  walk context (String.intercalate "." parts) none parts

/-- Instrumented projection of the loop of `genericResolver`: the
accumulator state after consuming the given parts without the loop exiting
(no resolver function encountered, no missing key); `none` when the loop
exits during these parts. -/
def walkAcc (context : Ctx) : Option CtxVal → List String → Option (Option CtxVal)
  | acc, [] => some acc
  | acc, part :: rest =>
    match lookupStep context acc part with
    | none => none
    | some (.func _) => none
    | some (.prim p) => walkAcc context (some (.prim p)) rest
    | some (.nested m) => walkAcc context (some (.nested m)) rest

/-- The spec-side accumulator: explicitly `unset` until the first part has
been looked up. -/
inductive SpecAcc where
  | unset
  | setTo (v : CtxVal)

/-- Spec-side lookup, following the claim wording literally: if the
accumulator is unset, look the part up in the top-level context; once it is
set, look the part up as a field of the accumulator value, never falling
back to the top-level context. -/
def specLookStrict (context : Ctx) : SpecAcc → String → Option CtxVal
  | .unset, part => ctxLookup context part
  | .setTo v, part => fieldGet v part

/-- Spec-side lookup as amended to match the code: the fallback to the
top-level context applies whenever the accumulator is unset or holds a
falsy value (`false`, `0` or the empty string). -/
def specLookJS (context : Ctx) : SpecAcc → String → Option CtxVal
  | .unset, part => ctxLookup context part
  | .setTo v, part => if truthy v then fieldGet v part else ctxLookup context part

/-- Spec-side walk over the key path, parameterised by the per-part lookup:
a resolver function short-circuits with the remaining parts, a missing value
fails with `KeyNotFound(path)`, and after the last part the accumulator
must be a primitive. -/
def specWalk (look : SpecAcc → String → Option CtxVal) (path : String) :
    SpecAcc → List String → Except TSError GetKeyRes
  | acc, [] =>
    match acc with
    | .setTo (.prim p) => .ok (.val (.prim p))
    | _ => .error (nonPrimErr path)
  | acc, part :: rest =>
    match look acc part with
    | none => .error (keyNotFoundErr path)
    | some (.func f) => .ok (.fromFunc (f rest))
    | some (.prim p) => specWalk look path (.setTo (.prim p)) rest
    | some (.nested m) => specWalk look path (.setTo (.nested m)) rest

/-- The key-path resolver exactly as claimed: strict accumulator dispatch
(set accumulators never fall back to the top-level context). -/
def resolverClaimStrict (context : Ctx) (parts : List String) : Except TSError GetKeyRes :=
  specWalk (specLookStrict context) (String.intercalate "." parts) .unset parts

/-- The key-path resolver as amended: falsy accumulators fall back to the
top-level context, mirroring `value ? value[part] : context[part]`. -/
def resolverClaimAmended (context : Ctx) (parts : List String) : Except TSError GetKeyRes :=
  specWalk (specLookJS context) (String.intercalate "." parts) .unset parts

/-- Modelled from the spec: the `ParserError` raised by the parser
front-end on malformed template syntax (the peg grammar and generated
parser are not under src/); the exact message text is not specified. -/
def parserErr : TSError :=
  ⟨"Unable to parse template string"⟩

/-- A parser token: literal text or the body of a `${...}` expression. -/
inductive Tok where
  | lit (cs : List Char)
  | expr (body : List Char)
deriving DecidableEq

/-- Modelled from the spec: the parser front-end tokenizer — literal text
interleaved with `${...}` expressions, an unterminated `${` being a parser
error.  One-character-at-a-time state machine: `.l` accumulates literal
text, `.d` is `.l` having just seen `$`, `.e` is inside an expression
(remembering the preceding literal and the body so far). -/
inductive ScanSt where
  | l (acc : List Char)
  | d (acc : List Char)
  | e (litAcc : List Char) (body : List Char)

/-- The tokenizer transition function; accumulators are kept reversed. -/
def tokAux : ScanSt → List Char → Except TSError (List Tok)
  | .l acc, [] => .ok [.lit acc.reverse]
  | .l acc, c :: r =>
    if c = '$' then tokAux (.d acc) r else tokAux (.l (c :: acc)) r
  | .d acc, [] => .ok [.lit (('$' :: acc).reverse)]
  | .d acc, c :: r =>
    if c = '{' then tokAux (.e acc []) r
    else if c = '$' then tokAux (.d ('$' :: acc)) r
    else tokAux (.l (c :: '$' :: acc)) r
  | .e _ _, [] => .error parserErr
  | .e la b, c :: r =>
    if c = '}' then do
      let ts ← tokAux (.l []) r
      .ok (.lit la.reverse :: .expr b.reverse :: ts)
    else tokAux (.e la (c :: b)) r

/-- Tokenize a template string. -/
def tokenize (s : String) : Except TSError (List Tok) :=
  tokAux (.l []) s.data

/-- Whether the character list contains a `${` occurrence (the start of a
template expression). -/
def hasTmpl : List Char → Bool
  | [] => false
  | c :: r => (decide (c = '$') && decide (r.head? = some '{')) || hasTmpl r

/-- Modelled from the spec: the parser splits a dotted expression body into
its key-path parts (`env.FOO` becomes `["env", "FOO"]`); identifier charset
validation is not modelled, no claim depends on it. -/
def splitDotsAux (acc : List Char) : List Char → List String
  | [] => [String.mk acc.reverse]
  | c :: r =>
    if c = '.' then String.mk acc.reverse :: splitDotsAux [] r
    else splitDotsAux (c :: acc) r

/-- Split an expression body on dots. -/
def splitDots (cs : List Char) : List String :=
  splitDotsAux [] cs

/-- JS stringification of a primitive, as performed by `Array.join`. -/
def primToString : Prim → String
  | .str s => s
  | .num n => toString n
  | .bool b => if b then "true" else "false"

/-- JS stringification of a context value (non-primitives never reach the
join because of the `isPrimitive` check, but the model is total). -/
def jsToString : CtxVal → String
  | .prim p => primToString p
  | .nested _ => "[object Object]"
  | .func _ => "function"

/-- One element of the array returned by `parser.parse`: an already
available string (literal text, a primitive lookup or a synchronous
resolver-function result) or a promise, modelled by its settlement. -/
inductive SegR where
  | now (s : String)
  | pending (r : Except TSError String)

/-- Convert a `getKey` result into a parsed segment. -/
def segOfGetKey : GetKeyRes → SegR
  | .val v => .now (jsToString v)
  | .fromFunc (.sync s) => .now s
  | .fromFunc (.async r) => .pending r

/-- Evaluate one token: literals verbatim, expressions through
`genericResolver` (whose synchronous throws abort the parse). -/
def evalTok (context : Ctx) : Tok → Except TSError SegR
  | .lit cs => .ok (.now (String.mk cs))
  | .expr body => (genericResolver context (splitDots body)).map segOfGetKey

/-- Evaluate all tokens in source order; the first synchronous throw aborts
(the parser invokes `getKey` while parsing left to right). -/
def evalToks (context : Ctx) : List Tok → Except TSError (List SegR)
  | [] => .ok []
  | t :: ts => do
    let s ← evalTok context t
    let ss ← evalToks context ts
    .ok (s :: ss)

/-- The value of a settled segment (rejected segments never reach the join). -/
def segVal : SegR → String
  | .now s => s
  | .pending (.ok s) => s
  | .pending (.error _) => ""

/-- The rejection carried by segment `i`, if any. -/
def rejectionAt (segs : List SegR) (i : Nat) : Option TSError :=
  match segs[i]? with
  | some (.pending (.error e)) => some e
  | _ => none

/-- The rejection of the first segment to settle among the rejected ones,
given the settlement order of the pending segments (indices into the
segment list; indices not listed settle afterwards in structural order). -/
def firstRejection (segs : List SegR) (settleOrder : List Nat) : Option TSError :=
  ((settleOrder ++ List.range segs.length).filterMap (rejectionAt segs)).head?

/-- Modelled from the spec and the Bluebird contract:
`Bluebird.all(parsed)` followed by `.join("")` — if any segment promise
rejects, reject with the rejection of the first promise to settle among the
rejected ones; otherwise fulfil with the concatenation of all segment
values in original order (template-string.ts lines 52-53). -/
def settleJoin (segs : List SegR) (settleOrder : List Nat) : Except TSError String :=
  match firstRejection segs settleOrder with
  | some e => .error e
  | none => .ok (String.join (segs.map segVal))

/-- The synchronous phase of `parseTemplateString`: tokenize and invoke
`getKey` on each expression in source order (template-string.ts line 50). -/
def syncPhase (context : Ctx) (s : String) : Except TSError (List SegR) := do
  let toks ← tokenize s
  evalToks context toks

/-- `parseTemplateString(string, context)` (template-string.ts lines
48-54), with the settlement order of pending segments explicit. -/
def parseTemplateString (context : Ctx) (settleOrder : List Nat) (s : String) :
    Except TSError String := do
  let segs ← syncPhase context s
  settleJoin segs settleOrder

/-- `needle` occurs as a substring of `hay`. -/
def strContains (hay needle : String) : Bool :=
  hay.data.tails.any (fun t => needle.data.isPrefixOf t)

/-- The bodies of the expression tokens of a token list, in source order. -/
def exprBodies : List Tok → List (List Char)
  | [] => []
  | .lit _ :: ts => exprBodies ts
  | .expr b :: ts => b :: exprBodies ts

/-- A configuration value for the deep resolver: the tagged variant over
null, boolean, number, string, sequence and mapping. -/
inductive Value where
  | vnull
  | vbool (b : Bool)
  | vnum (n : Int)
  | vstr (s : String)
  | varr (xs : List Value)
  | vobj (fs : List (String × Value))

mutual

/-- `resolveTemplateStrings(o, context)` (template-string.ts lines 90-93).
Modelled from the spec for the parts not under src/: the `deep-map`
traversal applies the callback (interpolate strings, leave other leaves
unchanged) to every leaf preserving structure, and `deepResolve` (from
`src/util`) awaits every pending leaf preserving structure; the two are
collapsed into one structure-preserving traversal in `Except`. -/
def resolveValue (context : Ctx) (settleOrder : List Nat) : Value → Except TSError Value
  | .vstr s => (parseTemplateString context settleOrder s).map .vstr
  | .varr xs => (resolveList context settleOrder xs).map .varr
  | .vobj fs => (resolveFields context settleOrder fs).map .vobj
  | v => .ok v

/-- Resolve the elements of a sequence in order. -/
def resolveList (context : Ctx) (settleOrder : List Nat) :
    List Value → Except TSError (List Value)
  | [] => .ok []
  | x :: xs => do
    let w ← resolveValue context settleOrder x
    let ws ← resolveList context settleOrder xs
    .ok (w :: ws)

/-- Resolve the values of a mapping in order, keeping the keys. -/
def resolveFields (context : Ctx) (settleOrder : List Nat) :
    List (String × Value) → Except TSError (List (String × Value))
  | [] => .ok []
  | (k, x) :: fs => do
    let w ← resolveValue context settleOrder x
    let ws ← resolveFields context settleOrder fs
    .ok ((k, w) :: ws)

end

/-- The claim-side shape relation for the deep resolver: the output tree
mirrors the input tree — null, boolean and number leaves unchanged (same
value, same type), every string leaf replaced by its interpolation result
in place, sequences element-wise in order (hence same length), mappings
with the same keys in the same positions and mirrored values. -/
inductive Mirrors (context : Ctx) (settleOrder : List Nat) : Value → Value → Prop where
  | null : Mirrors context settleOrder .vnull .vnull
  | bool (b : Bool) : Mirrors context settleOrder (.vbool b) (.vbool b)
  | num (n : Int) : Mirrors context settleOrder (.vnum n) (.vnum n)
  | str (s t : String) : parseTemplateString context settleOrder s = .ok t →
      Mirrors context settleOrder (.vstr s) (.vstr t)
  | arr (xs ws : List Value) : List.Forall₂ (Mirrors context settleOrder) xs ws →
      Mirrors context settleOrder (.varr xs) (.varr ws)
  | obj (fs gs : List (String × Value)) :
      fs.map Prod.fst = gs.map Prod.fst →
      List.Forall₂ (Mirrors context settleOrder) (fs.map Prod.snd) (gs.map Prod.snd) →
      Mirrors context settleOrder (.vobj fs) (.vobj gs)

/-- `s` occurs as a string leaf of the value tree. -/
inductive IsStrLeaf (s : String) : Value → Prop where
  | here : IsStrLeaf s (.vstr s)
  | inArr (x : Value) (xs : List Value) : x ∈ xs → IsStrLeaf s x → IsStrLeaf s (.varr xs)
  | inObj (k : String) (x : Value) (fs : List (String × Value)) :
      (k, x) ∈ fs → IsStrLeaf s x → IsStrLeaf s (.vobj fs)

/-- JS spread merge `{ ...a, ...b }`, modelled on association lists whose
lookup returns the first binding: bindings of `b` shadow bindings of `a`.
(Key insertion order of the merged object is not modelled; the spec states
insertion order is irrelevant.) -/
def spreadMerge (a b : Ctx) : Ctx :=
  b ++ a

/-- The process environment: a mapping from variable names to strings. -/
abbrev EnvMap := List (String × String)

/-- `process.env` as a nested context of string values. -/
def envCtx (env : EnvMap) : List (String × CtxVal) :=
  env.map (fun kv => (kv.1, .prim (.str kv.2)))

/-- The base context of `getTemplateContext` (template-string.ts lines
96-99): the reserved `env` entry bound to the full process environment. -/
def baseContext (env : EnvMap) : Ctx :=
  [("env", .nested (envCtx env))]

/-- `getTemplateContext(extraContext)` (template-string.ts lines 95-102)
with the ambient `process.env` passed explicitly:
`{ ...baseContext, ...extraContext }`. -/
def getTemplateContext (env : EnvMap) (extraContext : Ctx) : Ctx :=
  spreadMerge (baseContext env) extraContext

/-- `getParser()` (template-string.ts lines 18-32) as a state transition on
the module-level `_parser` variable: when unset, construct the parser (the
two branches of the try/catch — precompiled module or pegjs generation —
are collapsed into the abstract constructor `mk`) and store it; otherwise
return the stored instance.  The `Nat` component counts how many times the
construction has run. -/
def getParser {P : Type} (mk : Unit → P) : Option P × Nat → (Option P × Nat) × P
  | (none, c) => ((some (mk ()), c + 1), mk ())
  | (some p, c) => ((some p, c), p)

/-- A process performing `n` successive calls to `getParser`, starting from
the fresh module state (`_parser` unset): the final state together with the
list of returned instances in call order. -/
def parserCalls {P : Type} (mk : Unit → P) : Nat → (Option P × Nat) × List P
  | 0 => ((none, 0), [])
  | n + 1 =>
    let s := parserCalls mk n
    let r := getParser mk s.1
    (r.1, s.2 ++ [r.2])

/-- The code-side accumulator corresponding to a spec-side accumulator:
`unset` is JS `undefined`. -/
def accOf : SpecAcc → Option CtxVal
  | .unset => none
  | .setTo v => some v

/-- Concrete context for the claims about the falsy-accumulator fallback:
`a` is the primitive `false`, `b` a top-level string. -/
def ctxFalsy : Ctx :=
  [("a", .prim (.bool false)), ("b", .prim (.str "hi"))]

/-- Concrete context whose only entry is a nested (non-primitive) value. -/
def ctxNested : Ctx :=
  [("m", .nested [("a", .prim (.num 1))])]

/-- Concrete resolver function joining the remaining parts with dashes. -/
def funcW : List String → RfRes :=
  fun ps => .sync (String.intercalate "-" ps)

/-- Concrete nested context holding a resolver function under `f` together
with an entry `c` that nested traversal could otherwise resolve. -/
def ctxFuncWInner : List (String × CtxVal) :=
  [("f", .func funcW), ("c", .prim (.str "nested"))]

/-- Concrete context for the short-circuit claim. -/
def ctxFuncW : Ctx :=
  [("a", .nested ctxFuncWInner)]

/-- Concrete rejection for the first asynchronous resolver. -/
def errA : TSError := ⟨"boomA"⟩

/-- Concrete rejection for the second asynchronous resolver. -/
def errB : TSError := ⟨"boomB"⟩

/-- Resolver function whose promise rejects with `errA`. -/
def funcA : List String → RfRes := fun _ => .async (.error errA)

/-- Resolver function whose promise rejects with `errB`. -/
def funcB : List String → RfRes := fun _ => .async (.error errB)

/-- Concrete context with two independently failing asynchronous resolvers. -/
def ctxAsync : Ctx :=
  [("f", .func funcA), ("g", .func funcB)]

/-- Concrete context binding `x` and `y` to strings. -/
def ctxXY : Ctx :=
  [("x", .prim (.str "X")), ("y", .prim (.str "Y"))]

/-- Concrete input tree for the deep-resolver claim. -/
def valW : Value :=
  .vobj [("a", .vstr "${x}"), ("b", .varr [.vnum 1, .vstr "${y}"]), ("c", .vnum 2)]

/-- Concrete output tree for the deep-resolver claim. -/
def valWRes : Value :=
  .vobj [("a", .vstr "X"), ("b", .varr [.vnum 1, .vstr "Y"]), ("c", .vnum 2)]

/-- Concrete environment for the context-builder claim. -/
def envW : EnvMap := [("FOO", "bar")]

/-- Concrete extra context for the context-builder claim. -/
def extraW : Ctx := [("x", .prim (.num 1))]

theorem walk_eq_specWalkJS (context : Ctx) (path : String) :
    ∀ (parts : List String) (a : SpecAcc),
      walk context path (accOf a) parts = specWalk (specLookJS context) path a parts := by
  intro parts
  induction parts with
  | nil =>
    intro a
    cases a with
    | unset => rfl
    | setTo v => cases v <;> rfl
  | cons part rest ih =>
    intro a
    have hls : lookupStep context (accOf a) part = specLookJS context a part := by
      cases a <;> rfl
    simp only [walk, specWalk, hls]
    cases h : specLookJS context a part with
    | none => rfl
    | some v =>
      cases v with
      | prim p => exact ih (.setTo (.prim p))
      | func f => rfl
      | nested m => exact ih (.setTo (.nested m))

/-- C1, counterexample: on the context `{a: false, b: "hi"}` and the path
`a.b`, the claimed resolver (set accumulators never fall back to the
top-level context) fails with `KeyNotFound("a.b")`, but the code sets the
accumulator to the falsy `false` and then looks `b` up in the top-level
context again, succeeding with `"hi"`. -/
theorem c1_counterexample :
    genericResolver ctxFalsy ["a", "b"] = .ok (.val (.prim (.str "hi"))) ∧
    resolverClaimStrict ctxFalsy ["a", "b"] = .error (keyNotFoundErr "a.b") :=
  ⟨rfl, rfl⟩

/-- C1, amended: for every context and non-empty key path the resolver
walks the parts in order with an accumulator; while the accumulator is
unset or holds a falsy value (`false`, `0` or `""`) the part is looked up
in the top-level context, and once the accumulator holds a truthy value
each subsequent part is looked up as a field of it; a missing value fails
with `KeyNotFound` carrying the full dotted path. -/
theorem c1_resolver_walk_amended (context : Ctx) (parts : List String)
    (hne : parts ≠ []) :
    genericResolver context parts = resolverClaimAmended context parts :=
  walk_eq_specWalkJS context (String.intercalate "." parts) parts .unset

/-- Witness for C1 at the concrete context and path of the counterexample. -/
theorem c1_resolver_walk_amended_witness :
    (["a", "b"] : List String) ≠ [] ∧
    genericResolver ctxFalsy ["a", "b"] = resolverClaimAmended ctxFalsy ["a", "b"] :=
  ⟨by decide, c1_resolver_walk_amended ctxFalsy ["a", "b"] (by decide)⟩

theorem walk_ok_val_prim (context : Ctx) (path : String) :
    ∀ (parts : List String) (acc : Option CtxVal) (v : CtxVal),
      walk context path acc parts = .ok (.val v) → ∃ p : Prim, v = .prim p := by
  intro parts
  induction parts with
  | nil =>
    intro acc v h
    cases acc with
    | none => simp [walk, isPrimitive] at h
    | some w =>
      cases w with
      | prim p =>
        simp [walk, isPrimitive] at h
        exact ⟨p, h.symm⟩
      | func f => simp [walk, isPrimitive] at h
      | nested m => simp [walk, isPrimitive] at h
  | cons part rest ih =>
    intro acc v h
    simp only [walk] at h
    cases hl : lookupStep context acc part with
    | none => rw [hl] at h; exact absurd h (by simp)
    | some w =>
      rw [hl] at h
      cases w with
      | prim p => exact ih _ v h
      | func f => exact absurd h (by simp)
      | nested m => exact ih _ v h

theorem walk_error_shape (context : Ctx) (path : String) :
    ∀ (parts : List String) (acc : Option CtxVal) (e : TSError),
      walk context path acc parts = .error e →
      e = keyNotFoundErr path ∨ e = nonPrimErr path := by
  intro parts
  induction parts with
  | nil =>
    intro acc e h
    cases acc with
    | none => simp [walk, isPrimitive] at h; exact Or.inr h.symm
    | some w =>
      cases w with
      | prim p => simp [walk, isPrimitive] at h
      | func f => simp [walk, isPrimitive] at h; exact Or.inr h.symm
      | nested m => simp [walk, isPrimitive] at h; exact Or.inr h.symm
  | cons part rest ih =>
    intro acc e h
    simp only [walk] at h
    cases hl : lookupStep context acc part with
    | none =>
      rw [hl] at h
      simp at h
      exact Or.inl h.symm
    | some w =>
      rw [hl] at h
      cases w with
      | prim p => exact ih _ e h
      | func f => exact absurd h (by simp)
      | nested m => exact ih _ e h

theorem strContains_append_middle (a p b : String) :
    strContains (a ++ p ++ b) p = true := by
  unfold strContains
  rw [List.any_eq_true]
  refine ⟨p.data ++ b.data, ?_, ?_⟩
  · rw [List.mem_tails, String.data_append, String.data_append, List.append_assoc]
    exact List.suffix_append _ _
  · rw [List.isPrefixOf_iff_prefix]
    exact List.prefix_append _ _

/-- C2, counterexample: on the context `{m: {a: 1}}` and path `m`, the
fully walked value is a mapping, and the error raised carries the dotted
path but no name of the observed kind (neither `object` nor `mapping` nor
`sequence` occurs in the message). -/
theorem c2_counterexample :
    genericResolver ctxNested ["m"] = .error (nonPrimErr "m") ∧
    strContains (nonPrimErr "m").message "object" = false ∧
    strContains (nonPrimErr "m").message "mapping" = false ∧
    strContains (nonPrimErr "m").message "sequence" = false :=
  ⟨rfl, by decide, by decide, by decide⟩

/-- C2, amended: the key-path resolver only ever returns a primitive from
its own walk (the resolver-function escape returns strings by its declared
type), and every error it raises — `KeyNotFound` as well as
`NonPrimitiveValue` — carries the full dotted path in its message; the
`NonPrimitiveValue` message does not name the observed kind. -/
theorem c2_resolver_primitive_and_error_path (context : Ctx) (parts : List String) :
    (∀ v : CtxVal, genericResolver context parts = .ok (.val v) → ∃ p : Prim, v = .prim p) ∧
    (∀ e : TSError, genericResolver context parts = .error e →
      strContains e.message (String.intercalate "." parts) = true) := by
  constructor
  · intro v h
    exact walk_ok_val_prim context _ parts none v h
  · intro e h
    rcases walk_error_shape context _ parts none e h with he | he
    · subst he
      have := strContains_append_middle "Could not find key: "
        (String.intercalate "." parts) ""
      simpa [keyNotFoundErr] using this
    · subst he
      exact strContains_append_middle "Value at " (String.intercalate "." parts) _

/-- Witness for C2 at the counterexample context. -/
theorem c2_resolver_primitive_and_error_path_witness :
    strContains (nonPrimErr "m").message "m" = true :=
  (c2_resolver_primitive_and_error_path ctxNested ["m"]).2 (nonPrimErr "m") rfl

/-- C10: invoking the resolver callback with an empty key-path list skips
the loop entirely, leaves the accumulator `undefined`, and always throws
the non-primitive `TemplateStringError` with an empty dotted path — never a
`KeyNotFound` error, for any path. -/
theorem c10_empty_parts_nonPrimitive (context : Ctx) :
    genericResolver context [] = .error (nonPrimErr "") ∧
    ∀ p : String, nonPrimErr "" ≠ keyNotFoundErr p := by
  refine ⟨rfl, ?_⟩
  intro p h
  have hm : (nonPrimErr "").message = (keyNotFoundErr p).message := by rw [h]
  have h0 : (nonPrimErr "").message.data.head? = some 'V' := rfl
  have h1 : (keyNotFoundErr p).message.data.head? = some 'C' := by
    show ("Could not find key: " ++ p).data.head? = some 'C'
    rw [String.data_append]
    rfl
  rw [hm, h1] at h0
  exact absurd h0 (by decide)

/-- Witness for C10 at a concrete context and a concrete competing path. -/
theorem c10_empty_parts_nonPrimitive_witness :
    genericResolver ctxFalsy [] = .error (nonPrimErr "") ∧
    nonPrimErr "" ≠ keyNotFoundErr "a" :=
  ⟨(c10_empty_parts_nonPrimitive ctxFalsy).1,
    (c10_empty_parts_nonPrimitive ctxFalsy).2 "a"⟩

theorem walkAcc_walk_append (context : Ctx) (path : String) :
    ∀ (pre : List String) (acc0 acc : Option CtxVal),
      walkAcc context acc0 pre = some acc →
      ∀ parts2, walk context path acc0 (pre ++ parts2) = walk context path acc parts2 := by
  intro pre
  induction pre with
  | nil =>
    intro acc0 acc h parts2
    simp only [walkAcc, Option.some.injEq] at h
    rw [h]
    rfl
  | cons q qs ih =>
    intro acc0 acc h parts2
    simp only [walkAcc] at h
    cases hl : lookupStep context acc0 q with
    | none => rw [hl] at h; exact absurd h (by simp)
    | some w =>
      rw [hl] at h
      cases w with
      | prim p =>
        simp only [List.cons_append, walk, hl]
        exact ih _ acc h parts2
      | func f => exact absurd h (by simp)
      | nested m =>
        simp only [List.cons_append, walk, hl]
        exact ih _ acc h parts2

/-- C3: if the loop reaches part index `i` (having consumed the prefix
`pre` of length `i` without exiting, with accumulator `acc`) and the value
looked up there is a resolver function, the resolver invokes it with
exactly the remaining parts `parts[i+1:]` and returns its result
immediately, performing no further walk — whatever nested context the later
parts could have resolved against. -/
theorem c3_resolver_function_short_circuits (context : Ctx) (pre : List String)
    (part : String) (rest : List String) (acc : Option CtxVal)
    (f : List String → RfRes)
    (hreach : walkAcc context none pre = some acc)
    (hfunc : lookupStep context acc part = some (.func f)) :
    genericResolver context (pre ++ part :: rest) = .ok (.fromFunc (f rest)) ∧
    rest = (pre ++ part :: rest).drop (pre.length + 1) := by
  constructor
  · unfold genericResolver
    rw [walkAcc_walk_append context _ pre none acc hreach (part :: rest)]
    simp [walk, hfunc]
  · have h1 : pre ++ part :: rest = (pre ++ [part]) ++ rest := by simp
    have h2 : pre.length + 1 = (pre ++ [part]).length := by simp
    rw [h1, h2, List.drop_left]

/-- Witness for C3: in `{a: {f: <resolver>, c: "nested"}}` the path
`a.f.c` reaches the resolver function at index 1 and hands it `["c"]`,
even though `c` exists in the nested context. -/
theorem c3_resolver_function_short_circuits_witness :
    genericResolver ctxFuncW ["a", "f", "c"] = .ok (.fromFunc (funcW ["c"])) ∧
    (["c"] : List String) = (["a", "f", "c"] : List String).drop 2 :=
  c3_resolver_function_short_circuits ctxFuncW ["a"] "f" ["c"]
    (some (.nested ctxFuncWInner)) funcW rfl rfl

theorem parserCalls_closed {P : Type} (mk : Unit → P) :
    ∀ n : Nat, parserCalls mk n =
      if n = 0 then ((none, 0), [])
      else ((some (mk ()), 1), List.replicate n (mk ())) := by
  intro n
  induction n with
  | zero => rfl
  | succ n ih =>
    cases n with
    | zero => rfl
    | succ m =>
      show (let s := parserCalls mk (m + 1);
        let r := getParser mk s.1; (r.1, s.2 ++ [r.2])) = _
      rw [ih]
      simp only [if_neg (Nat.succ_ne_zero m), if_neg (Nat.succ_ne_zero (m + 1))]
      simp [List.replicate_succ', getParser]

/-- C9: starting from a fresh process, across any number `n` of calls to
the parser accessor the construction runs `min n 1` times (zero before the
first call, exactly once from then on), every call returns the very same
constructed instance, and once set the stored instance never changes. -/
theorem c9_parser_singleton {P : Type} (mk : Unit → P) (n : Nat) :
    (parserCalls mk n).1.2 = min n 1 ∧
    (∀ p ∈ (parserCalls mk n).2, p = mk ()) ∧
    (1 ≤ n → (parserCalls mk n).1.1 = some (mk ())) := by
  rw [parserCalls_closed]
  cases n with
  | zero => simp
  | succ m =>
    refine ⟨?_, ?_, ?_⟩
    · simp [Nat.min_eq_right (Nat.succ_le_succ (Nat.zero_le m))]
    · intro p hp
      simp only [if_neg (Nat.succ_ne_zero m)] at hp
      exact List.eq_of_mem_replicate hp
    · intro h
      simp [if_neg (Nat.succ_ne_zero m)]

/-- Witness for C9 with three calls constructing a `Nat` parser. -/
theorem c9_parser_singleton_witness :
    (7 : Nat) ∈ (parserCalls (fun _ => (7 : Nat)) 3).2 ∧
    (7 : Nat) = 7 ∧
    1 ≤ 3 ∧
    (parserCalls (fun _ => (7 : Nat)) 3).1.1 = some 7 :=
  ⟨by decide, (c9_parser_singleton (fun _ => (7 : Nat)) 3).2.1 7 (by decide),
    by decide, (c9_parser_singleton (fun _ => (7 : Nat)) 3).2.2 (by decide)⟩

theorem ctxLookup_append (a b : Ctx) (k : String) :
    ctxLookup (a ++ b) k =
      match ctxLookup a k with
      | some v => some v
      | none => ctxLookup b k := by
  induction a with
  | nil => simp [ctxLookup]
  | cons kv rest ih =>
    obtain ⟨k1, v1⟩ := kv
    by_cases h : k1 = k
    · simp [ctxLookup, h]
    · simp only [List.cons_append, ctxLookup, if_neg h]
      exact ih

/-- C8: for every environment and extra context, the built context contains
the reserved `env` entry exposing the full process environment mapping,
shallow-merged with the extra context so that the extra context wins on
every top-level key collision (`env` included, whole values — no deep
merge), while keys only in the extra context or only in the base are
present unchanged. -/
theorem c8_context_builder (env : EnvMap) (extraContext : Ctx) :
    (∀ k v, ctxLookup extraContext k = some v →
      ctxLookup (getTemplateContext env extraContext) k = some v) ∧
    (∀ k, ctxLookup extraContext k = none →
      ctxLookup (getTemplateContext env extraContext) k = ctxLookup (baseContext env) k) ∧
    (ctxLookup extraContext "env" = none →
      ctxLookup (getTemplateContext env extraContext) "env" = some (.nested (envCtx env))) := by
  have hm : ∀ k, ctxLookup (getTemplateContext env extraContext) k =
      match ctxLookup extraContext k with
      | some v => some v
      | none => ctxLookup (baseContext env) k :=
    fun k => ctxLookup_append extraContext (baseContext env) k
  refine ⟨?_, ?_, ?_⟩
  · intro k v h
    rw [hm k, h]
  · intro k h
    rw [hm k, h]
  · intro h
    rw [hm "env", h]
    rfl

/-- Witness for C8: with `FOO=bar` in the environment and an extra context
not binding `env`, the built context resolves `env` to the environment
mapping. -/
theorem c8_context_builder_witness :
    ctxLookup (getTemplateContext envW extraW) "env" = some (.nested (envCtx envW)) :=
  (c8_context_builder envW extraW).2.2 rfl

theorem tokAux_noTmpl :
    ∀ cs : List Char, hasTmpl cs = false →
      (∀ acc, tokAux (.l acc) cs = .ok [.lit (acc.reverse ++ cs)]) ∧
      (∀ acc, cs.head? ≠ some '{' →
        tokAux (.d acc) cs = .ok [.lit (acc.reverse ++ '$' :: cs)]) := by
  intro cs
  induction cs with
  | nil =>
    intro _
    constructor
    · intro acc; simp [tokAux]
    · intro acc _; simp [tokAux]
  | cons c r ih =>
    intro h
    have hh : ((decide (c = '$') && decide (r.head? = some '{')) = false) ∧
        hasTmpl r = false := by
      rw [hasTmpl, Bool.or_eq_false_iff] at h
      exact h
    have hnot : ¬(c = '$' ∧ r.head? = some '{') := by
      intro ⟨h1, h2⟩
      rw [h1, h2] at hh
      simp at hh
    obtain ⟨ihl, ihd⟩ := ih hh.2
    constructor
    · intro acc
      by_cases hc : c = '$'
      · subst hc
        rw [show tokAux (.l acc) ('$' :: r) = tokAux (.d acc) r by simp [tokAux]]
        have hr : r.head? ≠ some '{' := fun hcontra => hnot ⟨rfl, hcontra⟩
        rw [ihd acc hr]
      · rw [show tokAux (.l acc) (c :: r) = tokAux (.l (c :: acc)) r by
          simp [tokAux, hc]]
        rw [ihl (c :: acc)]
        simp
    · intro acc hhead
      have hc1 : c ≠ '{' := by
        intro hc
        exact hhead (by rw [hc]; rfl)
      by_cases hc : c = '$'
      · subst hc
        rw [show tokAux (.d acc) ('$' :: r) = tokAux (.d ('$' :: acc)) r by
          simp [tokAux]]
        have hr : r.head? ≠ some '{' := fun hcontra => hnot ⟨rfl, hcontra⟩
        rw [ihd ('$' :: acc) hr]
        simp
      · rw [show tokAux (.d acc) (c :: r) = tokAux (.l (c :: '$' :: acc)) r by
          simp [tokAux, hc1, hc]]
        rw [ihl (c :: '$' :: acc)]
        simp

theorem tokenize_noTmpl (s : String) (h : hasTmpl s.data = false) :
    tokenize s = .ok [.lit s.data] := by
  unfold tokenize
  have := (tokAux_noTmpl s.data h).1 []
  simpa using this

theorem firstRejection_no_pending (segs : List SegR) (settleOrder : List Nat)
    (h : ∀ i, rejectionAt segs i = none) :
    firstRejection segs settleOrder = none := by
  unfold firstRejection
  have hnil : (settleOrder ++ List.range segs.length).filterMap (rejectionAt segs) = [] := by
    rw [List.filterMap_eq_nil_iff]
    intro a _
    exact h a
  rw [hnil]
  rfl

theorem except_bind_ok {ε α β : Type} (a : α) (f : α → Except ε β) :
    (do let x ← (Except.ok a : Except ε α); f x) = f a := rfl

theorem join_singleton (s : String) : String.join [s] = s := by
  show "" ++ s = s
  exact String.empty_append s

/-- C6: on success interpolation returns the concatenation of all segment
values in original source order; in particular a template containing no
template expression is returned unchanged, for every context and every
settlement order. -/
theorem c6_interpolate_concat_and_identity (context : Ctx) (settleOrder : List Nat)
    (s : String) :
    (hasTmpl s.data = false → parseTemplateString context settleOrder s = .ok s) ∧
    (∀ segs, syncPhase context s = .ok segs → firstRejection segs settleOrder = none →
      parseTemplateString context settleOrder s = .ok (String.join (segs.map segVal))) := by
  constructor
  · intro h
    have ht := tokenize_noTmpl s h
    have hsync : syncPhase context s = .ok [.now (String.mk s.data)] := by
      simp [syncPhase, ht, except_bind_ok, evalToks, evalTok]
    have hfr : firstRejection [SegR.now (String.mk s.data)] settleOrder = none := by
      apply firstRejection_no_pending
      intro i
      cases i with
      | zero => rfl
      | succ n => rfl
    simp [parseTemplateString, hsync, except_bind_ok, settleJoin, hfr, segVal, join_singleton]
  · intro segs hsync hfr
    simp [parseTemplateString, hsync, except_bind_ok, settleJoin, hfr]

/-- Witness for C6: an expression-free template is returned unchanged. -/
theorem c6_interpolate_concat_and_identity_witness :
    parseTemplateString ctxFalsy [] "hello" = .ok "hello" :=
  (c6_interpolate_concat_and_identity ctxFalsy [] "hello").1 (by decide)

theorem firstRejection_some (segs : List SegR) (settleOrder : List Nat) (e : TSError)
    (h : firstRejection segs settleOrder = some e) :
    ∃ i : Nat, segs[i]? = some (SegR.pending (Except.error e)) := by
  unfold firstRejection at h
  have hmem : e ∈ (settleOrder ++ List.range segs.length).filterMap (rejectionAt segs) :=
    List.mem_of_mem_head? (Option.mem_def.mpr h)
  rw [List.mem_filterMap] at hmem
  obtain ⟨i, _, hi⟩ := hmem
  unfold rejectionAt at hi
  cases hseg : segs[i]? with
  | none => rw [hseg] at hi; simp at hi
  | some seg =>
    rw [hseg] at hi
    cases seg with
    | now s1 => simp at hi
    | pending r =>
      cases r with
      | ok s1 => simp at hi
      | error e1 =>
        simp at hi
        rw [hi] at hseg
        exact ⟨i, hseg⟩

/-- C4, counterexample: the template loading two independently rejecting
asynchronous resolutions reports a different error depending on which
rejection settles first — the reported error is not chosen by structural
order, so two runs of the same call on the same input can report different
errors. -/
theorem c4_counterexample :
    parseTemplateString ctxAsync [1, 3] "${f}${g}" = .error errA ∧
    parseTemplateString ctxAsync [3, 1] "${f}${g}" = .error errB ∧
    errA ≠ errB :=
  ⟨rfl, rfl, by decide⟩

/-- C4, amended: errors thrown synchronously while the parser evaluates
expressions are reported deterministically — the whole call fails with
exactly the synchronous-phase error, which the left-to-right parse fixes at
the leftmost failing expression, independent of any settlement order; but
when the synchronous phase succeeds and the call still fails, the reported
error is the rejection of some pending segment chosen by settlement order,
which may differ between runs. -/
theorem c4_error_choice (context : Ctx) (settleOrder : List Nat) (s : String) :
    (∀ e, syncPhase context s = .error e →
      parseTemplateString context settleOrder s = .error e) ∧
    (∀ segs e, syncPhase context s = .ok segs →
      parseTemplateString context settleOrder s = .error e →
      ∃ i : Nat, segs[i]? = some (SegR.pending (Except.error e))) := by
  constructor
  · intro e h
    unfold parseTemplateString
    rw [h]
    rfl
  · intro segs e hok herr
    unfold parseTemplateString at herr
    rw [hok, except_bind_ok] at herr
    unfold settleJoin at herr
    cases hfr : firstRejection segs settleOrder with
    | some e1 =>
      rw [hfr] at herr
      simp at herr
      rw [← herr]
      exact firstRejection_some segs settleOrder e1 hfr
    | none =>
      rw [hfr] at herr
      simp at herr

/-- Witness for C4 at a template whose failure is synchronous. -/
theorem c4_error_choice_witness :
    parseTemplateString ctxFalsy [] "${missing}" = .error (keyNotFoundErr "missing") :=
  (c4_error_choice ctxFalsy [] "${missing}").1 (keyNotFoundErr "missing") rfl


theorem except_bind_error {ε α β : Type} (e : ε) (f : α → Except ε β) :
    (do let x ← (Except.error e : Except ε α); f x) = Except.error e := rfl

theorem except_map_ok {ε α β : Type} (f : α → β) (a : α) :
    (Except.ok a : Except ε α).map f = .ok (f a) := rfl

theorem except_map_error {ε α β : Type} (f : α → β) (e : ε) :
    (Except.error e : Except ε α).map f = .error e := rfl

theorem resolveList_ok (context : Ctx) (settleOrder : List Nat) :
    ∀ (xs ws : List Value), resolveList context settleOrder xs = .ok ws →
      List.Forall₂ (fun x w => resolveValue context settleOrder x = .ok w) xs ws := by
  intro xs
  induction xs with
  | nil =>
    intro ws h
    simp only [resolveList] at h
    injection h with h
    subst h
    exact List.Forall₂.nil
  | cons x xs ih =>
    intro ws h
    unfold resolveList at h
    cases hx : resolveValue context settleOrder x with
    | error e => rw [hx, except_bind_error] at h; exact Except.noConfusion h
    | ok w =>
      rw [hx, except_bind_ok] at h
      cases hl : resolveList context settleOrder xs with
      | error e => rw [hl, except_bind_error] at h; exact Except.noConfusion h
      | ok ws2 =>
        rw [hl, except_bind_ok] at h
        injection h with h
        subst h
        exact List.Forall₂.cons hx (ih ws2 hl)

theorem resolveFields_ok (context : Ctx) (settleOrder : List Nat) :
    ∀ (fs gs : List (String × Value)), resolveFields context settleOrder fs = .ok gs →
      fs.map Prod.fst = gs.map Prod.fst ∧
      List.Forall₂ (fun x w => resolveValue context settleOrder x = .ok w)
        (fs.map Prod.snd) (gs.map Prod.snd) := by
  intro fs
  induction fs with
  | nil =>
    intro gs h
    simp only [resolveFields] at h
    injection h with h
    subst h
    exact ⟨rfl, List.Forall₂.nil⟩
  | cons kx fs ih =>
    intro gs h
    obtain ⟨k, x⟩ := kx
    unfold resolveFields at h
    cases hx : resolveValue context settleOrder x with
    | error e => rw [hx, except_bind_error] at h; exact Except.noConfusion h
    | ok w =>
      rw [hx, except_bind_ok] at h
      cases hl : resolveFields context settleOrder fs with
      | error e => rw [hl, except_bind_error] at h; exact Except.noConfusion h
      | ok gs2 =>
        rw [hl, except_bind_ok] at h
        injection h with h
        subst h
        obtain ⟨hkeys, hvals⟩ := ih gs2 hl
        exact ⟨by simp [hkeys], List.Forall₂.cons hx hvals⟩

theorem forall₂_imp_of_mem {α β : Type} {R S : α → β → Prop} :
    ∀ {xs : List α} {ws : List β}, List.Forall₂ R xs ws →
      (∀ x ∈ xs, ∀ w, R x w → S x w) → List.Forall₂ S xs ws := by
  intro xs ws h
  induction h with
  | nil => intro _; exact List.Forall₂.nil
  | cons hR hRs ih =>
    intro hmem
    refine List.Forall₂.cons (hmem _ (by simp) _ hR) (ih ?_)
    intro x hx w hw
    exact hmem x (by simp [hx]) w hw

theorem sizeOf_lt_varr (x : Value) (xs : List Value) (h : x ∈ xs) :
    sizeOf x < sizeOf (Value.varr xs) := by
  have h1 := List.sizeOf_lt_of_mem h
  simp only [Value.varr.sizeOf_spec]
  omega

theorem sizeOf_lt_vobj (x : Value) (k : String) (fs : List (String × Value))
    (h : (k, x) ∈ fs) : sizeOf x < sizeOf (Value.vobj fs) := by
  have h1 := List.sizeOf_lt_of_mem h
  have h2 : sizeOf x < sizeOf (k, x) := by simp
  simp only [Value.vobj.sizeOf_spec]
  omega

theorem resolveValue_ok_mirrors_aux (context : Ctx) (settleOrder : List Nat) :
    ∀ (n : Nat) (v : Value), sizeOf v ≤ n → ∀ w,
      resolveValue context settleOrder v = .ok w → Mirrors context settleOrder v w := by
  intro n
  induction n with
  | zero =>
    intro v hv
    exfalso
    have h1 : 1 ≤ sizeOf v := by cases v <;> simp_arith
    omega
  | succ n ih =>
    intro v hv w h
    cases v with
    | vnull =>
      simp only [resolveValue] at h
      injection h with h
      subst h
      exact .null
    | vbool b =>
      simp only [resolveValue] at h
      injection h with h
      subst h
      exact .bool b
    | vnum m =>
      simp only [resolveValue] at h
      injection h with h
      subst h
      exact .num m
    | vstr s =>
      unfold resolveValue at h
      cases hp : parseTemplateString context settleOrder s with
      | error e => rw [hp, except_map_error] at h; exact Except.noConfusion h
      | ok t =>
        rw [hp, except_map_ok] at h
        injection h with h
        subst h
        exact .str s t hp
    | varr xs =>
      unfold resolveValue at h
      cases hl : resolveList context settleOrder xs with
      | error e => rw [hl, except_map_error] at h; exact Except.noConfusion h
      | ok ws =>
        rw [hl, except_map_ok] at h
        injection h with h
        subst h
        refine Mirrors.arr xs ws
          (forall₂_imp_of_mem (resolveList_ok context settleOrder xs ws hl) ?_)
        intro x hx w2 hr
        have hsz : sizeOf x ≤ n := by
          have := sizeOf_lt_varr x xs hx
          omega
        exact ih x hsz w2 hr
    | vobj fs =>
      unfold resolveValue at h
      cases hl : resolveFields context settleOrder fs with
      | error e => rw [hl, except_map_error] at h; exact Except.noConfusion h
      | ok gs =>
        rw [hl, except_map_ok] at h
        injection h with h
        subst h
        obtain ⟨hkeys, hvals⟩ := resolveFields_ok context settleOrder fs gs hl
        refine Mirrors.obj fs gs hkeys (forall₂_imp_of_mem hvals ?_)
        intro x hx w2 hr
        rw [List.mem_map] at hx
        obtain ⟨⟨k, x1⟩, hmem, hx1⟩ := hx
        simp only at hx1
        subst hx1
        have hsz : sizeOf x1 ≤ n := by
          have := sizeOf_lt_vobj x1 k fs hmem
          omega
        exact ih x1 hsz w2 hr


theorem evalToks_error (context : Ctx) :
    ∀ (toks : List Tok) (e : TSError), evalToks context toks = .error e →
      ∃ b ∈ exprBodies toks, genericResolver context (splitDots b) = .error e := by
  intro toks
  induction toks with
  | nil => intro e h; exact Except.noConfusion h
  | cons t ts ih =>
    intro e h
    unfold evalToks at h
    cases ht : evalTok context t with
    | error e1 =>
      rw [ht, except_bind_error] at h
      injection h with h
      subst h
      cases t with
      | lit cs => exact Except.noConfusion ht
      | expr b =>
        have ht2 : (genericResolver context (splitDots b)).map segOfGetKey =
            Except.error e1 := ht
        cases hg : genericResolver context (splitDots b) with
        | error e2 =>
          rw [hg, except_map_error] at ht2
          injection ht2 with ht2
          subst ht2
          exact ⟨b, by simp [exprBodies], hg⟩
        | ok r => rw [hg, except_map_ok] at ht2; exact Except.noConfusion ht2
    | ok s1 =>
      rw [ht, except_bind_ok] at h
      cases hts : evalToks context ts with
      | error e1 =>
        rw [hts, except_bind_error] at h
        injection h with h
        subst h
        obtain ⟨b, hb, hg⟩ := ih e1 hts
        refine ⟨b, ?_, hg⟩
        cases t with
        | lit cs => simpa [exprBodies] using hb
        | expr b0 => simp only [exprBodies, List.mem_cons]; exact Or.inr hb
      | ok ss => rw [hts, except_bind_ok] at h; exact Except.noConfusion h

theorem syncPhase_error (context : Ctx) (s : String) (e : TSError)
    (h : syncPhase context s = .error e) :
    tokenize s = .error e ∨
    ∃ toks, tokenize s = .ok toks ∧ ∃ b ∈ exprBodies toks,
      genericResolver context (splitDots b) = .error e := by
  unfold syncPhase at h
  cases ht : tokenize s with
  | error e1 =>
    rw [ht, except_bind_error] at h
    injection h with h
    exact Or.inl (by rw [h])
  | ok toks =>
    rw [ht, except_bind_ok] at h
    exact Or.inr ⟨toks, rfl, evalToks_error context toks e h⟩

theorem settleJoin_error (segs : List SegR) (settleOrder : List Nat) (e : TSError)
    (h : settleJoin segs settleOrder = .error e) :
    ∃ i : Nat, segs[i]? = some (SegR.pending (Except.error e)) := by
  unfold settleJoin at h
  cases hfr : firstRejection segs settleOrder with
  | some e1 =>
    rw [hfr] at h
    injection h with h
    subst h
    exact firstRejection_some segs settleOrder e1 hfr
  | none => rw [hfr] at h; exact Except.noConfusion h

theorem resolveList_error (context : Ctx) (settleOrder : List Nat) :
    ∀ (xs : List Value) (e : TSError), resolveList context settleOrder xs = .error e →
      ∃ x ∈ xs, resolveValue context settleOrder x = .error e := by
  intro xs
  induction xs with
  | nil => intro e h; exact Except.noConfusion h
  | cons x xs ih =>
    intro e h
    unfold resolveList at h
    cases hx : resolveValue context settleOrder x with
    | error e1 =>
      rw [hx, except_bind_error] at h
      injection h with h
      subst h
      exact ⟨x, by simp, hx⟩
    | ok w =>
      rw [hx, except_bind_ok] at h
      cases hl : resolveList context settleOrder xs with
      | error e1 =>
        rw [hl, except_bind_error] at h
        injection h with h
        subst h
        obtain ⟨x1, hmem, hx1⟩ := ih e1 hl
        exact ⟨x1, by simp [hmem], hx1⟩
      | ok ws => rw [hl, except_bind_ok] at h; exact Except.noConfusion h

theorem resolveFields_error (context : Ctx) (settleOrder : List Nat) :
    ∀ (fs : List (String × Value)) (e : TSError),
      resolveFields context settleOrder fs = .error e →
      ∃ k x, (k, x) ∈ fs ∧ resolveValue context settleOrder x = .error e := by
  intro fs
  induction fs with
  | nil => intro e h; exact Except.noConfusion h
  | cons kx fs ih =>
    intro e h
    obtain ⟨k, x⟩ := kx
    unfold resolveFields at h
    cases hx : resolveValue context settleOrder x with
    | error e1 =>
      rw [hx, except_bind_error] at h
      injection h with h
      subst h
      exact ⟨k, x, by simp, hx⟩
    | ok w =>
      rw [hx, except_bind_ok] at h
      cases hl : resolveFields context settleOrder fs with
      | error e1 =>
        rw [hl, except_bind_error] at h
        injection h with h
        subst h
        obtain ⟨k1, x1, hmem, hx1⟩ := ih e1 hl
        exact ⟨k1, x1, by simp [hmem], hx1⟩
      | ok gs => rw [hl, except_bind_ok] at h; exact Except.noConfusion h

theorem resolveValue_error_aux (context : Ctx) (settleOrder : List Nat) :
    ∀ (n : Nat) (v : Value), sizeOf v ≤ n → ∀ e,
      resolveValue context settleOrder v = .error e →
      ∃ s, IsStrLeaf s v ∧ parseTemplateString context settleOrder s = .error e := by
  intro n
  induction n with
  | zero =>
    intro v hv
    exfalso
    have h1 : 1 ≤ sizeOf v := by cases v <;> simp_arith
    omega
  | succ n ih =>
    intro v hv e h
    cases v with
    | vnull => exact Except.noConfusion h
    | vbool b => exact Except.noConfusion h
    | vnum m => exact Except.noConfusion h
    | vstr s =>
      unfold resolveValue at h
      cases hp : parseTemplateString context settleOrder s with
      | error e1 =>
        rw [hp, except_map_error] at h
        injection h with h
        subst h
        exact ⟨s, IsStrLeaf.here, hp⟩
      | ok t => rw [hp, except_map_ok] at h; exact Except.noConfusion h
    | varr xs =>
      unfold resolveValue at h
      cases hl : resolveList context settleOrder xs with
      | error e1 =>
        rw [hl, except_map_error] at h
        injection h with h
        subst h
        obtain ⟨x, hmem, hx⟩ := resolveList_error context settleOrder xs e1 hl
        have hsz : sizeOf x ≤ n := by
          have := sizeOf_lt_varr x xs hmem
          omega
        obtain ⟨s, hleaf, hp⟩ := ih x hsz e1 hx
        exact ⟨s, IsStrLeaf.inArr x xs hmem hleaf, hp⟩
      | ok ws => rw [hl, except_map_ok] at h; exact Except.noConfusion h
    | vobj fs =>
      unfold resolveValue at h
      cases hl : resolveFields context settleOrder fs with
      | error e1 =>
        rw [hl, except_map_error] at h
        injection h with h
        subst h
        obtain ⟨k, x, hmem, hx⟩ := resolveFields_error context settleOrder fs e1 hl
        have hsz : sizeOf x ≤ n := by
          have := sizeOf_lt_vobj x k fs hmem
          omega
        obtain ⟨s, hleaf, hp⟩ := ih x hsz e1 hx
        exact ⟨s, IsStrLeaf.inObj k x fs hmem hleaf, hp⟩
      | ok gs => rw [hl, except_map_ok] at h; exact Except.noConfusion h


/-- C5: whenever the deep resolver succeeds, its output tree mirrors the
input tree exactly — sequences keep order and length, mappings keep their
keys in place, every string leaf is replaced by its interpolation result in
its original position, and every null, boolean and number leaf is returned
unchanged with the same value and type. -/
theorem c5_deep_resolver_shape (context : Ctx) (settleOrder : List Nat)
    (v w : Value) (h : resolveValue context settleOrder v = .ok w) :
    Mirrors context settleOrder v w :=
  resolveValue_ok_mirrors_aux context settleOrder (sizeOf v) v (Nat.le_refl _) w h

/-- Witness for C5 on the concrete tree of the spec example. -/
theorem c5_deep_resolver_shape_witness :
    resolveValue ctxXY [] valW = .ok valWRes ∧ Mirrors ctxXY [] valW valWRes :=
  ⟨rfl, c5_deep_resolver_shape ctxXY [] valW valWRes rfl⟩

/-- C7: any error of a failing interpolation is exactly an error raised by
the parser (tokenizer) or by the key-path resolver — synchronously or as a
segment rejection — and any error of a failing deep resolution is exactly
the interpolation error of one of the string leaves of the input; in the
`Except` model no value is returned alongside an error, so there is no
partial output, recovery or default substitution. -/
theorem c7_error_propagation (context : Ctx) (settleOrder : List Nat) :
    (∀ s e, parseTemplateString context settleOrder s = .error e →
      tokenize s = .error e ∨
      (∃ toks, tokenize s = .ok toks ∧ ∃ b ∈ exprBodies toks,
        genericResolver context (splitDots b) = .error e) ∨
      (∃ segs, syncPhase context s = .ok segs ∧ ∃ i : Nat,
        segs[i]? = some (SegR.pending (Except.error e)))) ∧
    (∀ v e, resolveValue context settleOrder v = .error e →
      ∃ s, IsStrLeaf s v ∧ parseTemplateString context settleOrder s = .error e) := by
  constructor
  · intro s e h
    unfold parseTemplateString at h
    cases hs : syncPhase context s with
    | error e1 =>
      rw [hs, except_bind_error] at h
      injection h with h
      subst h
      rcases syncPhase_error context s e1 hs with h1 | h2
      · exact Or.inl h1
      · exact Or.inr (Or.inl h2)
    | ok segs =>
      rw [hs, except_bind_ok] at h
      exact Or.inr (Or.inr ⟨segs, rfl, settleJoin_error segs settleOrder e h⟩)
  · intro v e h
    exact resolveValue_error_aux context settleOrder (sizeOf v) v (Nat.le_refl _) e h

/-- Witness for C7 at a template whose lookup fails. -/
theorem c7_error_propagation_witness :
    tokenize "${missing}" = .error (keyNotFoundErr "missing") ∨
    (∃ toks, tokenize "${missing}" = .ok toks ∧ ∃ b ∈ exprBodies toks,
      genericResolver ctxFalsy (splitDots b) = .error (keyNotFoundErr "missing")) ∨
    (∃ segs, syncPhase ctxFalsy "${missing}" = .ok segs ∧ ∃ i : Nat,
      segs[i]? = some (SegR.pending (Except.error (keyNotFoundErr "missing")))) :=
  (c7_error_propagation ctxFalsy []).1 "${missing}" (keyNotFoundErr "missing") rfl

end TemplateString
